import Mathlib

/-!
Verification of the acmego diff-to-edit translator (src/acme/acmego/main.go).

Byte buffers are `List Nat` (each entry a byte value), with 10 the newline
byte. Pure functions of the Go source (`findLines`, `parseSpan`, the hunk
header scan, the replay loop of `reformat`) are translated directly. The
external collaborators (the /usr/bin/diff engine and the acme window
backend) are modelled from the spec, with doc comments marking them.
-/

namespace Acmego

abbrev Byte := Nat

/-- A line is a byte sequence; well-formed lines contain no newline byte. -/
abbrev Line := List Byte

/-- Every line of the list is free of the newline byte 10. -/
def LinesWF (ls : List Line) : Prop := ∀ l ∈ ls, (10 : Byte) ∉ l

/-- Serialize a list of lines into a byte buffer, each line followed by a
newline byte (newline-terminated buffer layout). -/
def serializeLines (ls : List Line) : List Byte :=
  ls.foldr (fun l acc => l ++ 10 :: acc) []

/-- Number of newline bytes in a buffer. -/
def countNL (t : List Byte) : Nat := t.count 10

/-! ## findLines (src/acme/acmego/main.go lines 199-217)

The Go function scans the buffer in two phases: skip `start-1` lines
(decrementing both counters at each newline), then take bytes while
`end > 0` (decrementing at each newline, including the final newline in
the span). Counters are Go ints, so they are `Int` here. -/

/-- First phase of `findLines`: the loop `for ; i < len(text) && start > 0; i++`
which decrements `start` and `end` at each newline. Returns the remaining
text from `startByte` on, together with the adjusted `end` counter. -/
def flSkip : List Byte → Int → Int → List Byte × Int
  | [], _, e => ([], e)
  | b :: rest, s, e =>
    if s > 0 then
      if b = 10 then flSkip rest (s - 1) (e - 1) else flSkip rest s e
    else (b :: rest, e)

/-- Second phase of `findLines`: the loop `for ; i < len(text) && end > 0; i++`
which decrements `end` at each newline; the byte at each visited index is
part of the span. -/
def flTake : List Byte → Int → List Byte
  | [], _ => []
  | b :: rest, e =>
    if e > 0 then b :: flTake rest (if b = 10 then e - 1 else e) else []

/-- `findLines(text, start, end)` from the Go source: the byte span of the
1-based inclusive line range `[start, end]`, clipped at end of buffer. -/
def findLines (text : List Byte) (start endL : Int) : List Byte :=
  let p := flSkip text (start - 1) endL
  flTake p.1 p.2

/-! ## parseSpan (src/acme/acmego/main.go lines 180-197) and the Atoi model -/

/-- ASCII decimal digit test. -/
def isDigit (b : Byte) : Bool := Nat.ble 48 b && Nat.ble b 57

/-- Value of a nonempty all-digit byte string, read in decimal; `none`
otherwise. This is the digit-consuming core of Go's `strconv.Atoi`. -/
def digitsVal (t : List Byte) : Option Nat :=
  if t ≠ [] ∧ t.all isDigit then
    some (t.foldl (fun a b => 10 * a + (b - 48)) 0)
  else none

/-- Largest value of Go's 64-bit `int`. -/
def maxInt64 : Nat := 2 ^ 63 - 1

/-- Modelled from the spec of Go's standard library: `strconv.Atoi` accepts
an optional sign (`+` is byte 43, `-` is byte 45) followed by one or more
decimal digits, and fails on any other shape or on 64-bit overflow. -/
def goAtoi (t : List Byte) : Option Int :=
  match t with
  | [] => none
  | b :: rest =>
    if b = 43 then
      match digitsVal rest with
      | some v => if v ≤ maxInt64 then some (Int.ofNat v) else none
      | none => none
    else if b = 45 then
      match digitsVal rest with
      | some v => if v ≤ 2 ^ 63 then some (-(Int.ofNat v)) else none
      | none => none
    else
      match digitsVal (b :: rest) with
      | some v => if v ≤ maxInt64 then some (Int.ofNat v) else none
      | none => none

/-- Split a byte string at its first comma (byte 44), as `strings.Index`
followed by the two slices does in `parseSpan`. -/
def splitAtComma : List Byte → Option (List Byte × List Byte)
  | [] => none
  | b :: rest =>
    if b = 44 then some ([], rest)
    else
      match splitAtComma rest with
      | none => none
      | some (a, c) => some (b :: a, c)

/-- `parseSpan` from the Go source: a bare integer `N` gives `(N, N)`,
`N,M` gives `(N, M)`, and any conversion failure gives `(0, 0)`. -/
def parseSpan (text : List Byte) : Int × Int :=
  match splitAtComma text with
  | none =>
    match goAtoi text with
    | none => (0, 0)
    | some n => (n, n)
  | some (a, b) =>
    match goAtoi a, goAtoi b with
    | some s, some e => (s, e)
    | some _, none => (0, 0)
    | none, some _ => (0, 0)
    | none, none => (0, 0)

/-- The scan `for j < len(line) && line[j] != 'a' && line[j] != 'c' &&
line[j] != 'd'` of the replay loop: split a header line at the first
occurrence of an operation byte (97 `a`, 99 `c`, 100 `d`), returning
`(line[:j], line[j], line[j+1:])`; `none` when no such byte exists. -/
def splitAtOp : List Byte → Option (List Byte × Byte × List Byte)
  | [] => none
  | b :: rest =>
    if b = 97 ∨ b = 99 ∨ b = 100 then some ([], b, rest)
    else
      match splitAtOp rest with
      | none => none
      | some (a, op, c) => some (b :: a, op, c)

/-- `strings.Split(s, "\n")`: cut the buffer at every newline byte; a
trailing newline yields a final empty piece, and the empty buffer yields
one empty piece. -/
def splitNL : List Byte → List (List Byte)
  | [] => [[]]
  | b :: rest =>
    if b = 10 then [] :: splitNL rest
    else
      match splitNL rest with
      | [] => [[b]]
      | l :: ls => (b :: l) :: ls

/-! ## Window backend model

Modelled from the spec: the acme window backend (9fans.net/go/acme, an
external collaborator not under src/). §6 of the spec: `setAddress` with
the grammar `"$"` (end of document), `"N+#0"` (insertion point after line
N), `"N,M"` (inclusive line range), erroring when the address is out of
range; `write("data", bytes)` replaces the currently addressed span;
`write("ctl", ...)` carries the mark/nomark undo-grouping markers. -/

/-- Byte offset just past the `k`-th newline of the buffer (0 for `k = 0`),
clipped to the buffer length when fewer than `k` newlines exist. -/
def afterNL : List Byte → Nat → Nat
  | _, 0 => 0
  | [], _ + 1 => 0
  | b :: rest, k + 1 =>
    if b = 10 then 1 + afterNL rest k else 1 + afterNL rest (k + 1)

/-- Modelled from the spec: the number of lines of a buffer as the backend
counts them — one per newline byte, plus one for a trailing fragment not
ending in a newline. -/
def lineCountB (buf : List Byte) : Nat :=
  countNL buf + (if buf = [] then 0 else if buf.getLast? = some 10 then 0 else 1)

/-- Modelled from the spec: resolving the address `"N,M"`. Valid when
`1 ≤ N ≤ M ≤ lineCount`; the selected byte span is `[afterNL (N-1), afterNL M)`. -/
def addrRangeLines (buf : List Byte) (s e : Int) : Option (Nat × Nat) :=
  if 1 ≤ s ∧ s ≤ e ∧ e ≤ (lineCountB buf : Int) then
    some (afterNL buf (s - 1).toNat, afterNL buf e.toNat)
  else none

/-- Modelled from the spec: resolving the address `"N+#0"`, the zero-width
insertion point just after line `N`. Valid when `1 ≤ N ≤ lineCount`. -/
def addrAfterLine (buf : List Byte) (s : Int) : Option Nat :=
  if 1 ≤ s ∧ s ≤ (lineCountB buf : Int) then some (afterNL buf s.toNat) else none

/-- The address expression shapes issued by the replay loop. -/
inductive AddrSpec where
  | dollar : AddrSpec
  | after : Int → AddrSpec
  | range : Int → Int → AddrSpec
  deriving DecidableEq, Repr

/-- One backend call, as recorded in the replay trace: a ctl write, an
address-setting attempt with its outcome, or a data write with its payload. -/
inductive Ev where
  | ctl : List Byte → Ev
  | addr : AddrSpec → Bool → Ev
  | data : List Byte → Ev
  deriving DecidableEq, Repr

/-- True for the events that are writes to the window (ctl or data calls);
address-setting calls are not writes. -/
def isWriteEv : Ev → Bool
  | .ctl _ => true
  | .addr _ _ => false
  | .data _ => true

/-- Replay state: the live buffer, the trace of backend calls made so far,
the `Window.modified` flag, and whether the loop was aborted by `break`. -/
structure RSt where
  buf : List Byte
  trace : List Ev
  modified : Bool
  stopped : Bool
  deriving DecidableEq, Repr

/-- `Window.Write("ctl", data)` (main.go lines 175-178): the call is traced
and the modified flag set, its error ignored. -/
def ctlW (st : RSt) (data : List Byte) : RSt :=
  { st with trace := st.trace ++ [Ev.ctl data], modified := true }

/-- Record an address-setting attempt and its outcome. -/
def addrEv (st : RSt) (spec : AddrSpec) (ok : Bool) : RSt :=
  { st with trace := st.trace ++ [Ev.addr spec ok] }

/-- `Window.Write("data", payload)` at the byte span `[i, j)`: the span is
replaced by the payload, the call traced, the modified flag set. -/
def dataW (st : RSt) (payload : List Byte) (i j : Nat) : RSt :=
  { st with
    buf := st.buf.take i ++ payload ++ st.buf.drop j,
    trace := st.trace ++ [Ev.data payload],
    modified := true }

/-- The bytes of the diff sentinel line `\ No newline at end of file`. -/
def noNewlineSentinel : List Byte :=
  [92, 32, 78, 111, 32, 110, 101, 119, 108, 105, 110, 101, 32,
   97, 116, 32, 101, 110, 100, 32, 111, 102, 32, 102, 105, 108, 101]

/-- The bytes of `"mark"`. -/
def markBytes : List Byte := [109, 97, 114, 107]

/-- The bytes of `"nomark"`. -/
def nomarkBytes : List Byte := [110, 111, 109, 97, 114, 107]

/-- One iteration of the replay loop of `reformat` (main.go lines 111-162)
on a single diff line. A `stopped` state is returned unchanged (the Go
`break` on an unparsable header line aborts the loop); an address error
inside a `switch` case only skips that case's data write, the loop goes on. -/
def replayStep (new : List Byte) (st : RSt) (line : List Byte) : RSt :=
  if st.stopped then st
  else if line = [] then st
  else if line = noNewlineSentinel then
    dataW (addrEv st AddrSpec.dollar true) [10] st.buf.length st.buf.length
  else if line.head? = some 60 ∨ line.head? = some 45 ∨ line.head? = some 62 then st
  else
    match splitAtOp line with
    | none => { st with stopped := true }
    | some (pre, op, post) =>
      if (parseSpan pre).1 = 0 ∨ (parseSpan post).1 = 0 then st
      else if op = 97 then
        match addrAfterLine st.buf (parseSpan pre).1 with
        | none => addrEv st (AddrSpec.after (parseSpan pre).1) false
        | some p =>
          dataW (addrEv st (AddrSpec.after (parseSpan pre).1) true)
            (findLines new (parseSpan post).1 (parseSpan post).2) p p
      else if op = 99 then
        match addrRangeLines st.buf (parseSpan pre).1 (parseSpan pre).2 with
        | none => addrEv st (AddrSpec.range (parseSpan pre).1 (parseSpan pre).2) false
        | some (i, j) =>
          dataW (addrEv st (AddrSpec.range (parseSpan pre).1 (parseSpan pre).2) true)
            (findLines new (parseSpan post).1 (parseSpan post).2) i j
      else if op = 100 then
        match addrRangeLines st.buf (parseSpan pre).1 (parseSpan pre).2 with
        | none => addrEv st (AddrSpec.range (parseSpan pre).1 (parseSpan pre).2) false
        | some (i, j) =>
          dataW (addrEv st (AddrSpec.range (parseSpan pre).1 (parseSpan pre).2) true) [] i j
      else st

/-- The replay loop over a list of diff lines already arranged in
processing order (the Go loop runs from the last diff line to the first). -/
def replayLines (new : List Byte) (lines : List (List Byte)) (st : RSt) : RSt :=
  lines.foldl (replayStep new) st

/-- The data-dependent core of `reformat` (main.go lines 60-164), taking the
on-disk content `old`, the live buffer `latest`, the formatter output `new`
and the diff engine's output `diffText` as data: the old-equals-new early
return (line 79), the snapshot guard (line 103), the mark/nomark ctl writes
(lines 108-109) and the reverse replay loop. The returned state carries the
final buffer, the backend call trace and the `Window.modified` result. -/
def reformatCore (old latest new diffText : List Byte) : RSt :=
  let st0 : RSt := ⟨latest, [], false, false⟩
  if old = new then st0
  else if old = latest then
    replayLines new ((splitNL diffText).reverse) (ctlW (ctlW st0 markBytes) nomarkBytes)
  else st0

/-! ## Diff engine model

Modelled from the spec: the Diff Engine is `/usr/bin/diff` (an external
collaborator, not under src/). §4.1: it produces a classic ed-script
report, one header line `OLDRANGE op NEWRANGE` per hunk with op among
`a`, `c`, `d`, followed by content lines prefixed `< `, `> ` or the
separator `---`; ranges are `N` or `N,M`; hunks are non-overlapping and
ascending in old-buffer coordinates. The model below compares the two
buffers line by line, emitting a one-line change hunk at each positional
mismatch and a final add or delete hunk for the leftover tail; it
satisfies the spec's DiffScript invariants (§3). -/

/-- Decimal digits of a natural number, most significant first, as ASCII
bytes. Fuel-structured so the kernel can evaluate it. -/
def natDigitsAux : Nat → Nat → List Byte
  | 0, _ => []
  | fuel + 1, n =>
    if n < 10 then [48 + n] else natDigitsAux fuel (n / 10) ++ [48 + n % 10]

/-- Decimal ASCII rendering of a natural number. -/
def natDigits (n : Nat) : List Byte := natDigitsAux (n + 1) n

/-- The three hunk kinds of an ed script. -/
inductive HKind where
  | hadd : HKind
  | hchange : HKind
  | hdelete : HKind
  deriving DecidableEq, Repr

/-- One ed-script hunk: kind, old range and new range (1-based inclusive;
for an add hunk the old range is the single insertion line, for a delete
hunk the new range is the single line preceding the deletion). -/
structure Hunk where
  kind : HKind
  oldS : Nat
  oldE : Nat
  newS : Nat
  newE : Nat
  deriving DecidableEq, Repr

/-- Modelled from the spec: positional line diff. Walk both line lists in
step; equal heads advance silently, differing heads emit a one-line change
hunk, and a leftover tail emits one add or delete hunk. `o` and `n` count
the lines already consumed on each side. -/
def diffAux : List Line → List Line → Nat → Nat → List Hunk
  | [], ys, o, n =>
    match ys with
    | [] => []
    | _ :: _ => [⟨HKind.hadd, o, o, n + 1, n + ys.length⟩]
  | x :: xs, ys, o, n =>
    match ys with
    | [] => [⟨HKind.hdelete, o + 1, o + (x :: xs).length, n, n⟩]
    | y :: ys' =>
      if x = y then diffAux xs ys' (o + 1) (n + 1)
      else ⟨HKind.hchange, o + 1, o + 1, n + 1, n + 1⟩ :: diffAux xs ys' (o + 1) (n + 1)

/-- The hunks of the modelled diff of two line buffers. -/
def diffOps (oldL newL : List Line) : List Hunk := diffAux oldL newL 0 0

/-- Render a range in diff notation: `N` when degenerate, else `N,M`. -/
def renderSpan (s e : Nat) : List Byte :=
  if s = e then natDigits s else natDigits s ++ 44 :: natDigits e

/-- The operation byte of a hunk kind. -/
def opByte : HKind → Byte
  | .hadd => 97
  | .hchange => 99
  | .hdelete => 100

/-- Lines `s..e` (1-based inclusive) of a line list. -/
def sliceLines (ls : List Line) (s e : Nat) : List Line :=
  (ls.take e).drop (s - 1)

/-- True for ctl events only. -/
def isCtlEv : Ev → Bool
  | .ctl _ => true
  | .addr _ _ => false
  | .data _ => false

/-- The trace shape asserted by the abort-on-address-failure claim: once an
address-setting call has failed, no further address or data call occurs. -/
def abortsAfterAddrFail : List Ev → Bool
  | [] => true
  | e :: rest =>
    match e with
    | Ev.addr _ false => rest.all isCtlEv
    | _ => abortsAfterAddrFail rest

/-- The header line of a hunk: old range, operation byte, new range. -/
def hunkHeader (h : Hunk) : List Byte :=
  renderSpan h.oldS h.oldE ++ opByte h.kind :: renderSpan h.newS h.newE

/-- The diff text lines of one hunk: the header, then the content lines
(`< ` old lines, `---`, `> ` new lines as the kind requires). -/
def renderHunk (oldL newL : List Line) (h : Hunk) : List (List Byte) :=
  match h.kind with
  | .hadd => hunkHeader h :: (sliceLines newL h.newS h.newE).map (fun l => 62 :: 32 :: l)
  | .hdelete => hunkHeader h :: (sliceLines oldL h.oldS h.oldE).map (fun l => 60 :: 32 :: l)
  | .hchange =>
    hunkHeader h ::
      ((sliceLines oldL h.oldS h.oldE).map (fun l => 60 :: 32 :: l)
        ++ [[45, 45, 45]]
        ++ (sliceLines newL h.newS h.newE).map (fun l => 62 :: 32 :: l))

/-- All diff text lines of a script. -/
def renderScript (oldL newL : List Line) (hs : List Hunk) : List (List Byte) :=
  (hs.map (renderHunk oldL newL)).flatten

/-- The modelled diff engine's byte output for two line buffers: the
rendered script, newline-terminated. -/
def diffBytes (oldL newL : List Line) : List Byte :=
  serializeLines (renderScript oldL newL (diffOps oldL newL))

/-! ## Helper lemmas -/

theorem trace_addrEv (st : RSt) (spec : AddrSpec) (ok : Bool) :
    (addrEv st spec ok).trace = st.trace ++ [Ev.addr spec ok] := rfl

theorem trace_dataW_addrEv (st : RSt) (spec : AddrSpec) (payload : List Byte) (i j : Nat) :
    (dataW (addrEv st spec true) payload i j).trace =
      st.trace ++ [Ev.addr spec true, Ev.data payload] := by
  simp [dataW, addrEv]

theorem replayStep_trace_modified (new : List Byte) (st : RSt) (l : List Byte) :
    ∃ ext, (replayStep new st l).trace = st.trace ++ ext ∧
      (st.modified = true → (replayStep new st l).modified = true) := by
  unfold replayStep
  repeat' split
  all_goals first
    | exact ⟨_, trace_dataW_addrEv _ _ _ _ _, fun _ => rfl⟩
    | exact ⟨_, trace_addrEv _ _ _, fun h => h⟩
    | exact ⟨[], by simp, fun h => h⟩

theorem replayLines_trace_modified (new : List Byte) (ls : List (List Byte)) :
    ∀ st : RSt, ∃ ext, (replayLines new ls st).trace = st.trace ++ ext ∧
      (st.modified = true → (replayLines new ls st).modified = true) := by
  induction ls with
  | nil => intro st; exact ⟨[], by simp [replayLines], fun h => by simpa [replayLines] using h⟩
  | cons l rest ih =>
    intro st
    obtain ⟨e1, he1, hm1⟩ := replayStep_trace_modified new st l
    obtain ⟨e2, he2, hm2⟩ := ih (replayStep new st l)
    refine ⟨e1 ++ e2, ?_, ?_⟩
    · show (replayLines new rest (replayStep new st l)).trace = _
      rw [he2, he1, List.append_assoc]
    · intro h
      show (replayLines new rest (replayStep new st l)).modified = true
      exact hm2 (hm1 h)

theorem digitsVal_shape (t : List Byte) (v : Nat) (h : digitsVal t = some v) :
    t ≠ [] ∧ t.all isDigit = true := by
  unfold digitsVal at h
  split at h
  case isTrue hcond => exact hcond
  case isFalse _ => exact absurd h (by simp)

theorem digitsVal_mem (ds : List Byte) (v : Nat) (h : digitsVal ds = some v) :
    ∀ c ∈ ds, isDigit c = true := by
  intro c hc
  exact List.all_eq_true.mp (digitsVal_shape ds v h).2 c hc

theorem goAtoi_mem (t : List Byte) (n : Int) (h : goAtoi t = some n) :
    ∀ c ∈ t, c = 43 ∨ c = 45 ∨ isDigit c = true := by
  match t with
  | [] => simp [goAtoi] at h
  | b :: rest =>
    simp only [goAtoi] at h
    intro c hc
    by_cases hb43 : b = 43
    · rw [if_pos hb43] at h
      cases hdv : digitsVal rest with
      | none => rw [hdv] at h; simp at h
      | some v =>
        rcases List.mem_cons.mp hc with rfl | hcr
        · exact Or.inl hb43
        · exact Or.inr (Or.inr (digitsVal_mem rest v hdv c hcr))
    · rw [if_neg hb43] at h
      by_cases hb45 : b = 45
      · rw [if_pos hb45] at h
        cases hdv : digitsVal rest with
        | none => rw [hdv] at h; simp at h
        | some v =>
          rcases List.mem_cons.mp hc with rfl | hcr
          · exact Or.inr (Or.inl hb45)
          · exact Or.inr (Or.inr (digitsVal_mem rest v hdv c hcr))
      · rw [if_neg hb45] at h
        cases hdv : digitsVal (b :: rest) with
        | none => rw [hdv] at h; simp at h
        | some v => exact Or.inr (Or.inr (digitsVal_mem _ v hdv c hc))

theorem goAtoi_no_comma (t : List Byte) (n : Int) (h : goAtoi t = some n) :
    (44 : Byte) ∉ t := by
  intro hm
  rcases goAtoi_mem t n h 44 hm with h1 | h1 | h1 <;> simp [isDigit] at h1

theorem splitAtComma_no_comma (t : List Byte) : (44 : Byte) ∉ t → splitAtComma t = none := by
  induction t with
  | nil => intro _; rfl
  | cons b rest ih =>
    intro h
    have hb : ¬ b = 44 := fun e => h (by simp [e])
    simp [splitAtComma, hb, ih (fun m => h (List.mem_cons_of_mem _ m))]

theorem splitAtComma_append (a b : List Byte) : (44 : Byte) ∉ a →
    splitAtComma (a ++ 44 :: b) = some (a, b) := by
  induction a with
  | nil => intro _; simp [splitAtComma]
  | cons c rest ih =>
    intro h
    have hc : ¬ c = 44 := fun e => h (by simp [e])
    rw [List.cons_append, splitAtComma, if_neg hc,
      ih (fun m => h (List.mem_cons_of_mem _ m))]

theorem countNL_cons (b : Byte) (rest : List Byte) :
    countNL (b :: rest) = countNL rest + if b = 10 then 1 else 0 := by
  simp [countNL, List.count_cons]

theorem countNL_append (a b : List Byte) : countNL (a ++ b) = countNL a + countNL b := by
  simp [countNL, List.count_append]

theorem flSkip_shape : ∀ (text : List Byte) (s e : Int),
    ∃ pre, text = pre ++ (flSkip text s e).1 ∧
      (flSkip text s e).2 = e - countNL pre := by
  intro text
  induction text with
  | nil => intro s e; exact ⟨[], by simp [flSkip, countNL]⟩
  | cons b rest ih =>
    intro s e
    by_cases hs : s > 0
    · by_cases hb : b = 10
      · obtain ⟨pre, h1, h2⟩ := ih (s - 1) (e - 1)
        refine ⟨b :: pre, ?_, ?_⟩
        · rw [flSkip, if_pos hs, if_pos hb]
          simpa using h1
        · rw [flSkip, if_pos hs, if_pos hb, h2, countNL_cons, if_pos hb]
          push_cast
          ring
      · obtain ⟨pre, h1, h2⟩ := ih s e
        refine ⟨b :: pre, ?_, ?_⟩
        · rw [flSkip, if_pos hs, if_neg hb]
          simpa using h1
        · rw [flSkip, if_pos hs, if_neg hb, h2, countNL_cons, if_neg hb]
          simp
    · exact ⟨[], by simp [flSkip, if_neg hs, countNL]⟩

theorem flTake_take : ∀ (t : List Byte) (e : Int), ∃ m, m ≤ t.length ∧ flTake t e = t.take m := by
  intro t
  induction t with
  | nil => intro e; exact ⟨0, by simp [flTake]⟩
  | cons b rest ih =>
    intro e
    by_cases he : e > 0
    · obtain ⟨m, hm, ht⟩ := ih (if b = 10 then e - 1 else e)
      refine ⟨m + 1, by simpa using hm, ?_⟩
      rw [flTake, if_pos he, ht]
      simp
    · exact ⟨0, by simp, by rw [flTake, if_neg he]; simp⟩

theorem flTake_all : ∀ (t : List Byte) (e : Int), (countNL t : Int) < e → flTake t e = t := by
  intro t
  induction t with
  | nil => intro e _; rfl
  | cons b rest ih =>
    intro e h
    have hnn : (0 : Int) ≤ countNL (b :: rest) := by positivity
    have he : e > 0 := by omega
    rw [flTake, if_pos he]
    congr 1
    apply ih
    rw [countNL_cons] at h
    by_cases hb : b = 10 <;> simp [hb] at h ⊢ <;> omega

theorem lineCountB_cons_nl (rest : List Byte) :
    lineCountB (10 :: rest) = 1 + lineCountB rest := by
  unfold lineCountB
  cases rest with
  | nil => simp [countNL]
  | cons c rs =>
    rw [List.getLast?_cons_cons, countNL_cons]
    simp
    omega

theorem lineCountB_cons_nonnl (b : Byte) (rest : List Byte) (hb : b ≠ 10) :
    lineCountB (b :: rest) = if rest = [] then 1 else lineCountB rest := by
  unfold lineCountB
  cases rest with
  | nil => simp [countNL, List.count_cons, hb, Ne.symm hb]
  | cons c rs =>
    rw [List.getLast?_cons_cons, countNL_cons, if_neg hb]
    simp

theorem lineCountB_pos (t : List Byte) (ht : t ≠ []) : 1 ≤ lineCountB t := by
  induction t with
  | nil => exact absurd rfl ht
  | cons b rest ih =>
    by_cases hb : b = 10
    · subst hb; rw [lineCountB_cons_nl]; omega
    · rw [lineCountB_cons_nonnl b rest hb]
      cases hr : rest with
      | nil => simp
      | cons c rs =>
        rw [if_neg (by simp)]
        exact hr ▸ ih (by simp [hr])

theorem flSkip_all : ∀ (text : List Byte) (s e : Int), (lineCountB text : Int) ≤ s →
    flSkip text s e = ([], e - countNL text) := by
  intro text
  induction text with
  | nil => intro s e _; simp [flSkip, countNL]
  | cons b rest ih =>
    intro s e h
    have hpos : (1 : Int) ≤ lineCountB (b :: rest) := by
      exact_mod_cast lineCountB_pos (b :: rest) (by simp)
    have hs : s > 0 := by omega
    by_cases hb : b = 10
    · subst hb
      rw [flSkip, if_pos hs, if_pos rfl]
      rw [lineCountB_cons_nl] at h
      push_cast at h
      rw [ih (s - 1) (e - 1) (by omega), countNL_cons]
      simp
      ring
    · rw [flSkip, if_pos hs, if_neg hb]
      rw [lineCountB_cons_nonnl b rest hb] at h
      cases hr : rest with
      | nil =>
        subst hr
        rw [flSkip, countNL_cons, if_neg hb]
        simp [countNL]
      | cons c rs =>
        rw [hr] at h
        rw [if_neg (by simp)] at h
        rw [← hr] at h ⊢
        rw [ih s e h, countNL_cons, if_neg hb]
        simp

/-! ## Serialization lemmas for the replay correctness proof -/

theorem serializeLines_cons (l : Line) (L : List Line) :
    serializeLines (l :: L) = l ++ 10 :: serializeLines L := rfl

theorem serializeLines_append (a b : List Line) :
    serializeLines (a ++ b) = serializeLines a ++ serializeLines b := by
  induction a with
  | nil => rfl
  | cons l rest ih =>
    rw [List.cons_append, serializeLines_cons, serializeLines_cons, ih]
    simp

theorem linesWF_append_left {a b : List Line} (h : LinesWF (a ++ b)) : LinesWF a :=
  fun l hl => h l (List.mem_append_left b hl)

theorem linesWF_append_right {a b : List Line} (h : LinesWF (a ++ b)) : LinesWF b :=
  fun l hl => h l (List.mem_append_right a hl)

theorem countNL_no_nl (l : List Byte) (h : (10 : Byte) ∉ l) : countNL l = 0 := by
  simp [countNL, List.count_eq_zero]
  exact fun h10 => h h10

theorem countNL_serializeLines (L : List Line) (h : LinesWF L) :
    countNL (serializeLines L) = L.length := by
  induction L with
  | nil => rfl
  | cons l rest ih =>
    rw [serializeLines_cons, countNL_append, countNL_cons, if_pos rfl,
      countNL_no_nl l (h l (by simp)), ih (fun x hx => h x (by simp [hx]))]
    simp [Nat.add_comm]

theorem serializeLines_ends_nl (L : List Line) (h : L ≠ []) :
    ∃ q, serializeLines L = q ++ [10] := by
  induction L with
  | nil => exact absurd rfl h
  | cons l rest ih =>
    cases rest with
    | nil => exact ⟨l, by simp [serializeLines]⟩
    | cons l2 rs =>
      obtain ⟨q, hq⟩ := ih (by simp)
      exact ⟨l ++ 10 :: q, by rw [serializeLines_cons, hq]; simp⟩

theorem lineCountB_serializeLines (L : List Line) (h : LinesWF L) :
    lineCountB (serializeLines L) = L.length := by
  cases hl : L with
  | nil => simp [lineCountB, serializeLines, countNL]
  | cons l rest =>
    subst hl
    obtain ⟨q, hq⟩ := serializeLines_ends_nl (l :: rest) (by simp)
    unfold lineCountB
    rw [countNL_serializeLines _ h, hq]
    have hne : q ++ [10] ≠ ([] : List Byte) := by simp
    rw [if_neg hne, if_pos (by simp)]
    simp

theorem afterNL_no_nl (l : List Byte) (h : (10 : Byte) ∉ l) (t : List Byte) (k : Nat) :
    afterNL (l ++ t) (k + 1) = l.length + afterNL t (k + 1) := by
  induction l with
  | nil => simp
  | cons b bs ih =>
    have hb : ¬ b = 10 := fun e => h (by simp [e])
    rw [List.cons_append, afterNL, if_neg hb,
      ih (fun m => h (List.mem_cons_of_mem _ m))]
    simp
    omega

theorem afterNL_serializeLines (L : List Line) (h : LinesWF L) :
    ∀ (k : Nat), k ≤ L.length → ∀ t, afterNL (serializeLines L ++ t) k =
      (serializeLines (L.take k)).length := by
  induction L with
  | nil =>
    intro k hk t
    have hk0 : k = 0 := Nat.le_zero.mp hk
    subst hk0
    simp [afterNL, serializeLines]
  | cons l rest ih =>
    intro k hk t
    cases k with
    | zero => simp [afterNL, serializeLines]
    | succ k2 =>
      rw [serializeLines_cons]
      have hl : (10 : Byte) ∉ l := h l (by simp)
      rw [List.append_assoc, List.cons_append, afterNL_no_nl l hl _ k2, afterNL, if_pos rfl]
      rw [ih (fun x hx => h x (by simp [hx])) k2 (by simpa using hk)]
      simp [serializeLines_cons, List.take_cons, serializeLines_append]
      omega

theorem flSkip_no_nl (l : List Byte) (hl : (10 : Byte) ∉ l) :
    ∀ (t : List Byte) (s e : Int), s > 0 → flSkip (l ++ t) s e = flSkip t s e := by
  induction l with
  | nil => intro t s e _; rfl
  | cons b bs ih =>
    intro t s e hs
    have hb : ¬ b = 10 := fun hb => hl (by simp [hb])
    rw [List.cons_append, flSkip, if_pos hs, if_neg hb,
      ih (fun m => hl (List.mem_cons_of_mem _ m)) t s e hs]

theorem flSkip_serializeLines (A : List Line) (h : LinesWF A) :
    ∀ (rest : List Byte) (e : Int),
      flSkip (serializeLines A ++ rest) (A.length : Int) e = (rest, e - A.length) := by
  induction A with
  | nil =>
    intro rest e
    cases rest with
    | nil => simp [serializeLines, flSkip]
    | cons b t => simp [serializeLines, flSkip]
  | cons l A2 ih =>
    intro rest e
    have hs : ((l :: A2).length : Int) > 0 := by simp
    rw [serializeLines_cons, List.append_assoc, List.cons_append,
      flSkip_no_nl l (h l (by simp)) _ _ _ hs, flSkip, if_pos hs, if_pos rfl]
    rw [show ((l :: A2).length : Int) - 1 = (A2.length : Int) by simp,
      ih (fun x hx => h x (by simp [hx])) rest (e - 1)]
    simp
    ring

theorem flTake_nonpos (t : List Byte) (e : Int) (he : ¬ e > 0) : flTake t e = [] := by
  cases t with
  | nil => rfl
  | cons b bs => rw [flTake, if_neg he]

theorem flTake_no_nl (l : List Byte) (hl : (10 : Byte) ∉ l) :
    ∀ (t : List Byte) (e : Int), e > 0 → flTake (l ++ t) e = l ++ flTake t e := by
  induction l with
  | nil => intro t e _; rfl
  | cons b bs ih =>
    intro t e he
    have hb : ¬ b = 10 := fun hb => hl (by simp [hb])
    rw [List.cons_append, flTake, if_pos he, if_neg hb,
      ih (fun m => hl (List.mem_cons_of_mem _ m)) t e he]
    rfl

theorem flTake_serializeLines (B : List Line) (h : LinesWF B) :
    ∀ rest : List Byte, flTake (serializeLines B ++ rest) (B.length : Int) = serializeLines B := by
  induction B with
  | nil => intro rest; exact flTake_nonpos rest 0 (by omega)
  | cons l B2 ih =>
    intro rest
    have he : ((l :: B2).length : Int) > 0 := by simp
    rw [serializeLines_cons, List.append_assoc, List.cons_append,
      flTake_no_nl l (h l (by simp)) _ _ he, flTake, if_pos he, if_pos rfl]
    rw [show ((l :: B2).length : Int) - 1 = (B2.length : Int) by simp,
      ih (fun x hx => h x (by simp [hx])) rest]

theorem findLines_serializeLines (A B : List Line) (hA : LinesWF A) (hB : LinesWF B)
    (rest : List Byte) :
    findLines (serializeLines A ++ serializeLines B ++ rest)
      ((A.length : Int) + 1) ((A.length : Int) + B.length) = serializeLines B := by
  show flTake (flSkip _ ((A.length : Int) + 1 - 1) _).1 (flSkip _ _ _).2 = _
  rw [show (A.length : Int) + 1 - 1 = (A.length : Int) by ring, List.append_assoc]
  rw [flSkip_serializeLines A hA (serializeLines B ++ rest) ((A.length : Int) + B.length)]
  rw [show (A.length : Int) + B.length - A.length = (B.length : Int) by ring]
  exact flTake_serializeLines B hB rest

/-! ## Decimal rendering lemmas -/

theorem natDigitsAux_digits : ∀ (fuel n : Nat), n < fuel →
    ∀ c ∈ natDigitsAux fuel n, isDigit c = true := by
  intro fuel
  induction fuel with
  | zero => intro n hn; omega
  | succ f2 ih =>
    intro n hn c hc
    rw [natDigitsAux] at hc
    by_cases h10 : n < 10
    · rw [if_pos h10] at hc
      simp at hc
      subst hc
      simp [isDigit, Nat.ble_eq]
      omega
    · rw [if_neg h10] at hc
      rcases List.mem_append.mp hc with hm | hm
      · exact ih (n / 10) (by omega) c hm
      · simp at hm
        subst hm
        simp [isDigit, Nat.ble_eq]
        omega

theorem natDigitsAux_ne_nil : ∀ (fuel n : Nat), n < fuel → natDigitsAux fuel n ≠ [] := by
  intro fuel
  induction fuel with
  | zero => intro n hn; omega
  | succ f2 ih =>
    intro n hn
    rw [natDigitsAux]
    by_cases h10 : n < 10
    · rw [if_pos h10]; simp
    · rw [if_neg h10]; simp

theorem natDigitsAux_foldl : ∀ (fuel n : Nat), n < fuel → ∀ acc : Nat,
    (natDigitsAux fuel n).foldl (fun a b => 10 * a + (b - 48)) acc =
      acc * 10 ^ (natDigitsAux fuel n).length + n := by
  intro fuel
  induction fuel with
  | zero => intro n hn; omega
  | succ f2 ih =>
    intro n hn acc
    rw [natDigitsAux]
    by_cases h10 : n < 10
    · rw [if_pos h10]
      simp only [List.foldl_cons, List.foldl_nil, List.length_cons, List.length_nil,
        Nat.add_sub_cancel_left, pow_one, Nat.zero_add]
      ring
    · rw [if_neg h10]
      rw [List.foldl_append, ih (n / 10) (by omega) acc]
      simp only [List.foldl_cons, List.foldl_nil, List.length_append, List.length_cons,
        List.length_nil, Nat.zero_add, Nat.add_zero]
      rw [Nat.add_sub_cancel_left, pow_succ, ← Nat.mul_assoc]
      generalize acc * 10 ^ (natDigitsAux f2 (n / 10)).length = X
      omega

theorem natDigits_digits (n : Nat) : ∀ c ∈ natDigits n, isDigit c = true :=
  natDigitsAux_digits (n + 1) n (by omega)

theorem natDigits_ne_nil (n : Nat) : natDigits n ≠ [] :=
  natDigitsAux_ne_nil (n + 1) n (by omega)

theorem digitsVal_natDigits (n : Nat) : digitsVal (natDigits n) = some n := by
  unfold digitsVal
  rw [if_pos ⟨natDigits_ne_nil n, List.all_eq_true.mpr (natDigits_digits n)⟩]
  rw [show (natDigits n).foldl (fun a b => 10 * a + (b - 48)) 0 =
    0 * 10 ^ (natDigits n).length + n from natDigitsAux_foldl (n + 1) n (by omega) 0]
  simp

theorem isDigit_facts (c : Byte) (h : isDigit c = true) :
    48 ≤ c ∧ c ≤ 57 := by
  simp [isDigit, Nat.ble_eq] at h
  exact h

theorem goAtoi_natDigits (n : Nat) (hn : n ≤ maxInt64) :
    goAtoi (natDigits n) = some (n : Int) := by
  cases hd : natDigits n with
  | nil => exact absurd hd (natDigits_ne_nil n)
  | cons d ds =>
    have hdig : isDigit d = true := natDigits_digits n d (by rw [hd]; simp)
    obtain ⟨h48, _⟩ := isDigit_facts d hdig
    have h43 : ¬ d = 43 := fun e => absurd (e ▸ h48) (by decide)
    have h45 : ¬ d = 45 := fun e => absurd (e ▸ h48) (by decide)
    have hdv : digitsVal (d :: ds) = some n := by rw [← hd]; exact digitsVal_natDigits n
    rw [goAtoi, if_neg h43, if_neg h45, hdv]
    simp [hn]

theorem parseSpan_natDigits (n : Nat) (hn : n ≤ maxInt64) :
    parseSpan (natDigits n) = ((n : Int), (n : Int)) := by
  have hnc : (44 : Byte) ∉ natDigits n := by
    intro hm
    obtain ⟨h48, _⟩ := isDigit_facts 44 (natDigits_digits n 44 hm)
    exact absurd h48 (by decide)
  unfold parseSpan
  rw [splitAtComma_no_comma _ hnc]
  simp [goAtoi_natDigits n hn]

theorem renderSpan_mem (s e : Nat) :
    ∀ b ∈ renderSpan s e, isDigit b = true ∨ b = 44 := by
  intro b hb
  unfold renderSpan at hb
  split at hb
  · exact Or.inl (natDigits_digits s b hb)
  · rcases List.mem_append.mp hb with hm | hm
    · exact Or.inl (natDigits_digits s b hm)
    · rcases List.mem_cons.mp hm with rfl | hm2
      · exact Or.inr rfl
      · exact Or.inl (natDigits_digits e b hm2)

theorem parseSpan_renderSpan (s e : Nat) (hs : s ≤ maxInt64) (he : e ≤ maxInt64) :
    parseSpan (renderSpan s e) = ((s : Int), (e : Int)) := by
  unfold renderSpan
  by_cases hse : s = e
  · rw [if_pos hse, parseSpan_natDigits s hs, hse]
  · rw [if_neg hse]
    have hnc : (44 : Byte) ∉ natDigits s := by
      intro hm
      obtain ⟨h48, _⟩ := isDigit_facts 44 (natDigits_digits s 44 hm)
      exact absurd h48 (by decide)
    unfold parseSpan
    rw [splitAtComma_append _ _ hnc]
    simp [goAtoi_natDigits s hs, goAtoi_natDigits e he]

theorem splitAtOp_append (A : List Byte) (op : Byte) (B : List Byte)
    (hA : ∀ b ∈ A, ¬(b = 97 ∨ b = 99 ∨ b = 100)) (hop : op = 97 ∨ op = 99 ∨ op = 100) :
    splitAtOp (A ++ op :: B) = some (A, op, B) := by
  induction A with
  | nil => rw [List.nil_append, splitAtOp, if_pos hop]
  | cons c rest ih =>
    rw [List.cons_append, splitAtOp, if_neg (hA c (by simp)),
      ih (fun b hb => hA b (List.mem_cons_of_mem _ hb))]

theorem splitNL_ne_nil : ∀ t : List Byte, splitNL t ≠ [] := by
  intro t
  induction t with
  | nil => simp [splitNL]
  | cons b rest ih =>
    rw [splitNL]
    by_cases hb : b = 10
    · rw [if_pos hb]; simp
    · rw [if_neg hb]
      cases hs : splitNL rest with
      | nil => simp
      | cons l ls => simp

theorem splitNL_line (l : List Byte) (hl : (10 : Byte) ∉ l) (t : List Byte) :
    splitNL (l ++ 10 :: t) = l :: splitNL t := by
  induction l with
  | nil => rw [List.nil_append, splitNL, if_pos rfl]
  | cons b bs ih =>
    have hb : ¬ b = 10 := fun e => hl (by simp [e])
    rw [List.cons_append, splitNL, if_neg hb,
      ih (fun m => hl (List.mem_cons_of_mem _ m))]

theorem splitNL_serializeLines (L : List Line) (h : LinesWF L) :
    splitNL (serializeLines L) = L ++ [[]] := by
  induction L with
  | nil => rfl
  | cons l rest ih =>
    rw [serializeLines_cons, splitNL_line l (h l (by simp)),
      ih (fun x hx => h x (by simp [hx]))]
    rfl

/-! ## Address resolution on serialized buffers -/

theorem linesWF_append {a b : List Line} (ha : LinesWF a) (hb : LinesWF b) :
    LinesWF (a ++ b) := by
  intro l hl
  rcases List.mem_append.mp hl with h | h
  · exact ha l h
  · exact hb l h

theorem linesWF_single {x : Line} (hx : (10 : Byte) ∉ x) : LinesWF [x] := by
  intro l hl
  simp at hl
  subst hl
  exact hx

theorem afterNL_ser_full (P : List Line) (hw : LinesWF P) (t : List Byte) :
    afterNL (serializeLines P ++ t) P.length = (serializeLines P).length := by
  rw [afterNL_serializeLines P hw P.length (le_refl _) t, List.take_length]

theorem lineCountB_ser_append3 (P B C : List Line) (hwP : LinesWF P) (hwB : LinesWF B)
    (hwC : LinesWF C) :
    lineCountB (serializeLines P ++ serializeLines B ++ serializeLines C) =
      P.length + B.length + C.length := by
  rw [← serializeLines_append, ← serializeLines_append,
    lineCountB_serializeLines _ (linesWF_append (linesWF_append hwP hwB) hwC)]
  simp [Nat.add_assoc]

theorem addrRangeLines_serial (P B C : List Line) (hwP : LinesWF P) (hwB : LinesWF B)
    (hwC : LinesWF C) (hB : B ≠ []) :
    addrRangeLines (serializeLines P ++ serializeLines B ++ serializeLines C)
        ((P.length : Int) + 1) ((P.length : Int) + (B.length : Int)) =
      some ((serializeLines P).length, (serializeLines P ++ serializeLines B).length) := by
  have hBlen : 1 ≤ B.length := by
    cases B with
    | nil => exact absurd rfl hB
    | cons l ls => simp
  unfold addrRangeLines
  rw [lineCountB_ser_append3 P B C hwP hwB hwC]
  rw [if_pos (by push_cast; omega)]
  have h1 : ((P.length : Int) + 1 - 1).toNat = P.length := by omega
  have h2 : ((P.length : Int) + (B.length : Int)).toNat = P.length + B.length := by omega
  rw [h1, h2]
  have ha1 : afterNL (serializeLines P ++ serializeLines B ++ serializeLines C) P.length =
      (serializeLines P).length := by
    rw [List.append_assoc]
    exact afterNL_ser_full P hwP _
  have ha2 : afterNL (serializeLines P ++ serializeLines B ++ serializeLines C)
      (P.length + B.length) = (serializeLines P ++ serializeLines B).length := by
    rw [← serializeLines_append]
    have := afterNL_ser_full (P ++ B) (linesWF_append hwP hwB) (serializeLines C)
    rw [List.length_append] at this
    exact this
  rw [ha1, ha2]

theorem addrAfterLine_serial (P C : List Line) (hwP : LinesWF P) (hwC : LinesWF C)
    (hP : P ≠ []) :
    addrAfterLine (serializeLines P ++ serializeLines C) (P.length : Int) =
      some (serializeLines P).length := by
  have hPlen : 1 ≤ P.length := by
    cases P with
    | nil => exact absurd rfl hP
    | cons l ls => simp
  unfold addrAfterLine
  rw [← serializeLines_append, lineCountB_serializeLines _ (linesWF_append hwP hwC)]
  rw [if_pos (by simp; omega)]
  rw [show ((P.length : Int)).toNat = P.length by omega, serializeLines_append]
  rw [afterNL_ser_full P hwP _]

theorem replayStep_stopped (new : List Byte) (st : RSt) (l : List Byte)
    (h : st.stopped = true) : replayStep new st l = st := by
  unfold replayStep
  rw [if_pos (by simp [h])]

theorem replayLines_stopped (new : List Byte) (ls : List (List Byte)) :
    ∀ st : RSt, st.stopped = true → replayLines new ls st = st := by
  induction ls with
  | nil => intro st _; rfl
  | cons l rest ih =>
    intro st h
    show replayLines new rest (replayStep new st l) = st
    rw [replayStep_stopped new st l h]
    exact ih st h

/-! ## Header line shape lemmas -/

theorem span_bytes_not_op (s e : Nat) :
    ∀ b ∈ renderSpan s e, ¬(b = 97 ∨ b = 99 ∨ b = 100) := by
  intro b hb
  rcases renderSpan_mem s e b hb with hd | h44
  · obtain ⟨h48, h57⟩ := isDigit_facts b hd
    rintro (rfl | rfl | rfl) <;> exact absurd h57 (by decide)
  · subst h44
    decide

theorem renderSpan_head_digit (s e : Nat) :
    ∃ d t, renderSpan s e = d :: t ∧ isDigit d = true := by
  unfold renderSpan
  cases hnd : natDigits s with
  | nil => exact absurd hnd (natDigits_ne_nil s)
  | cons d ds =>
    have hdig : isDigit d = true := natDigits_digits s d (by rw [hnd]; simp)
    split
    · exact ⟨d, ds, rfl, hdig⟩
    · exact ⟨d, ds ++ 44 :: natDigits e, by simp, hdig⟩

theorem hunkHeader_facts (h : Hunk) :
    hunkHeader h ≠ [] ∧ hunkHeader h ≠ noNewlineSentinel ∧
      ¬((hunkHeader h).head? = some 60 ∨ (hunkHeader h).head? = some 45 ∨
        (hunkHeader h).head? = some 62) ∧
      splitAtOp (hunkHeader h) =
        some (renderSpan h.oldS h.oldE, opByte h.kind, renderSpan h.newS h.newE) := by
  obtain ⟨d, t, hrs, hdig⟩ := renderSpan_head_digit h.oldS h.oldE
  obtain ⟨h48, h57⟩ := isDigit_facts d hdig
  have hline : hunkHeader h = d :: (t ++ opByte h.kind :: renderSpan h.newS h.newE) := by
    unfold hunkHeader
    rw [hrs]
    simp
  refine ⟨by rw [hline]; simp, ?_, ?_, ?_⟩
  · rw [hline]
    intro he
    simp [noNewlineSentinel] at he
    obtain ⟨he1, _⟩ := he
    subst he1
    exact absurd h57 (by decide)
  · rw [hline]
    simp
    refine ⟨?_, ?_, ?_⟩ <;> (rintro rfl)
    · exact absurd h57 (by decide)
    · exact absurd h48 (by decide)
    · exact absurd h57 (by decide)
  · unfold hunkHeader
    exact splitAtOp_append _ _ _ (span_bytes_not_op h.oldS h.oldE)
      (by cases hk : h.kind <;> simp [opByte, hk])

/-! ## Replay of rendered hunks -/

theorem replayStep_skip_line (new : List Byte) (st : RSt) (b : Byte) (t : List Byte)
    (hb : b = 60 ∨ b = 45 ∨ b = 62) : replayStep new st (b :: t) = st := by
  by_cases hstop : st.stopped = true
  · exact replayStep_stopped _ _ _ hstop
  · have hb92 : b ≠ 92 := by rcases hb with rfl | rfl | rfl <;> decide
    have hsent : ¬(b :: t = noNewlineSentinel) := by
      intro he
      apply hb92
      have := congrArg List.head? he
      simp [noNewlineSentinel] at this
      exact this
    unfold replayStep
    rw [if_neg hstop, if_neg (by simp), if_neg hsent,
      if_pos (by rcases hb with rfl | rfl | rfl <;> simp)]

theorem replayStep_blank (new : List Byte) (st : RSt) : replayStep new st [] = st := by
  unfold replayStep
  by_cases hstop : st.stopped = true
  · rw [if_pos hstop]
  · rw [if_neg hstop, if_pos rfl]

theorem replayLines_skip_all (new : List Byte) (ls : List (List Byte))
    (h : ∀ l ∈ ls, ∃ b t, l = b :: t ∧ (b = 60 ∨ b = 45 ∨ b = 62)) :
    ∀ st : RSt, replayLines new ls st = st := by
  induction ls with
  | nil => intro st; rfl
  | cons l rest ih =>
    intro st
    obtain ⟨b, t, hl, hb⟩ := h l (List.mem_cons_self l rest)
    subst hl
    show replayLines new rest (replayStep new st (b :: t)) = st
    rw [replayStep_skip_line new st b t hb]
    exact ih (fun x hx => h x (by simp [hx])) st

theorem renderHunk_eq (oldL newL : List Line) (h : Hunk) :
    ∃ contents, renderHunk oldL newL h = hunkHeader h :: contents ∧
      ∀ l ∈ contents, ∃ b t, l = b :: t ∧ (b = 60 ∨ b = 45 ∨ b = 62) := by
  unfold renderHunk
  cases hk : h.kind
  · refine ⟨_, rfl, ?_⟩
    intro l hl
    obtain ⟨x, _, rfl⟩ := List.mem_map.mp hl
    exact ⟨62, 32 :: x, rfl, by simp⟩
  · refine ⟨_, rfl, ?_⟩
    intro l hl
    rcases List.mem_append.mp hl with hm | hm
    · rcases List.mem_append.mp hm with hm2 | hm2
      · obtain ⟨x, _, rfl⟩ := List.mem_map.mp hm2
        exact ⟨60, 32 :: x, rfl, by simp⟩
      · simp at hm2
        subst hm2
        exact ⟨45, [45, 45], rfl, by simp⟩
    · obtain ⟨x, _, rfl⟩ := List.mem_map.mp hm
      exact ⟨62, 32 :: x, rfl, by simp⟩
  · refine ⟨_, rfl, ?_⟩
    intro l hl
    obtain ⟨x, _, rfl⟩ := List.mem_map.mp hl
    exact ⟨60, 32 :: x, rfl, by simp⟩

theorem replayLines_renderHunk (new : List Byte) (oldL newL : List Line) (h : Hunk)
    (st : RSt) :
    replayLines new (renderHunk oldL newL h).reverse st = replayStep new st (hunkHeader h) := by
  obtain ⟨contents, heq, hc⟩ := renderHunk_eq oldL newL h
  rw [heq, List.reverse_cons]
  unfold replayLines
  rw [List.foldl_append]
  have hskip : List.foldl (replayStep new) st contents.reverse = st :=
    replayLines_skip_all new contents.reverse
      (fun l hl => hc l (List.mem_reverse.mp hl)) st
  rw [hskip]
  rfl

/-! ## Replay of one hunk header against a serialized buffer -/

theorem replayStep_change_hunk (new : List Byte) (st : RSt) (P Q ys : List Line)
    (x y : Line) (o n : Nat)
    (hwP : LinesWF P) (hwQ : LinesWF Q) (hwys : LinesWF ys)
    (hwx : (10 : Byte) ∉ x) (hwy : (10 : Byte) ∉ y)
    (hstop : st.stopped = false)
    (ho : o = P.length) (hn : n = Q.length)
    (hbuf : st.buf = serializeLines (P ++ x :: ys))
    (hnew : new = serializeLines (Q ++ y :: ys))
    (hob : o + 1 ≤ maxInt64) (hnb : n + 1 ≤ maxInt64) :
    (replayStep new st (hunkHeader ⟨HKind.hchange, o + 1, o + 1, n + 1, n + 1⟩)).buf =
        serializeLines (P ++ y :: ys) ∧
      (replayStep new st (hunkHeader ⟨HKind.hchange, o + 1, o + 1, n + 1, n + 1⟩)).stopped =
        false := by
  obtain ⟨hne, hsent, hhead, hsplit⟩ :=
    hunkHeader_facts ⟨HKind.hchange, o + 1, o + 1, n + 1, n + 1⟩
  have hps1 : parseSpan (renderSpan (o + 1) (o + 1)) = (((o + 1 : Nat) : Int), ((o + 1 : Nat) : Int)) :=
    parseSpan_renderSpan _ _ hob hob
  have hps2 : parseSpan (renderSpan (n + 1) (n + 1)) = (((n + 1 : Nat) : Int), ((n + 1 : Nat) : Int)) :=
    parseSpan_renderSpan _ _ hnb hnb
  have hbuf2 : st.buf = serializeLines P ++ serializeLines [x] ++ serializeLines ys := by
    rw [hbuf, show P ++ x :: ys = P ++ [x] ++ ys by simp, serializeLines_append,
      serializeLines_append]
  have hnew2 : new = serializeLines Q ++ serializeLines [y] ++ serializeLines ys := by
    rw [hnew, show Q ++ y :: ys = Q ++ [y] ++ ys by simp, serializeLines_append,
      serializeLines_append]
  have haddr : addrRangeLines st.buf ((o + 1 : Nat) : Int) ((o + 1 : Nat) : Int) =
      some ((serializeLines P).length, (serializeLines P ++ serializeLines [x]).length) := by
    have ha := addrRangeLines_serial P [x] ys hwP (linesWF_single hwx) hwys (by simp)
    simp only [List.length_singleton, Nat.cast_one] at ha
    rw [hbuf2, show ((o + 1 : Nat) : Int) = (P.length : Int) + 1 by rw [ho]; push_cast; ring]
    exact ha
  have hpay : findLines new ((n + 1 : Nat) : Int) ((n + 1 : Nat) : Int) = serializeLines [y] := by
    have hp := findLines_serializeLines Q [y] hwQ (linesWF_single hwy) (serializeLines ys)
    simp only [List.length_singleton, Nat.cast_one] at hp
    rw [hnew2, show ((n + 1 : Nat) : Int) = (Q.length : Int) + 1 by rw [hn]; push_cast; ring]
    exact hp
  have hstep : replayStep new st (hunkHeader ⟨HKind.hchange, o + 1, o + 1, n + 1, n + 1⟩) =
      dataW (addrEv st (AddrSpec.range ((o + 1 : Nat) : Int) ((o + 1 : Nat) : Int)) true)
        (serializeLines [y]) (serializeLines P).length
        (serializeLines P ++ serializeLines [x]).length := by
    unfold replayStep
    rw [if_neg (by simp [hstop]), if_neg hne, if_neg hsent, if_neg hhead, hsplit]
    push_cast at hps1 hps2 haddr hpay
    have hno : ¬((o : Int) + 1 = 0) := by omega
    have hnn : ¬((n : Int) + 1 = 0) := by omega
    simp [hps1, hps2, haddr, hpay, hno, hnn, opByte]
  have h1 : st.buf.take (serializeLines P).length = serializeLines P := by
    rw [hbuf2, List.append_assoc]
    exact List.take_left _ _
  have h2 : st.buf.drop (serializeLines P ++ serializeLines [x]).length = serializeLines ys := by
    rw [hbuf2]
    exact List.drop_left _ _
  constructor
  · rw [hstep]
    show st.buf.take _ ++ serializeLines [y] ++ st.buf.drop _ = _
    rw [h1, h2, ← serializeLines_append, ← serializeLines_append]
    simp
  · rw [hstep]
    exact hstop

theorem replayStep_delete_hunk (new : List Byte) (st : RSt) (P B : List Line) (o n : Nat)
    (hwP : LinesWF P) (hwB : LinesWF B) (hB : B ≠ [])
    (hstop : st.stopped = false)
    (ho : o = P.length) (hn1 : 1 ≤ n)
    (hbuf : st.buf = serializeLines (P ++ B))
    (hob : o + B.length ≤ maxInt64) (hnb : n ≤ maxInt64) :
    (replayStep new st (hunkHeader ⟨HKind.hdelete, o + 1, o + B.length, n, n⟩)).buf =
        serializeLines P ∧
      (replayStep new st (hunkHeader ⟨HKind.hdelete, o + 1, o + B.length, n, n⟩)).stopped =
        false := by
  obtain ⟨hne, hsent, hhead, hsplit⟩ :=
    hunkHeader_facts ⟨HKind.hdelete, o + 1, o + B.length, n, n⟩
  have hBlen : 1 ≤ B.length := by
    cases B with
    | nil => exact absurd rfl hB
    | cons l ls => simp
  have hps1 : parseSpan (renderSpan (o + 1) (o + B.length)) =
      (((o + 1 : Nat) : Int), ((o + B.length : Nat) : Int)) :=
    parseSpan_renderSpan _ _ (by omega) hob
  have hps2 : parseSpan (renderSpan n n) = (((n : Nat) : Int), ((n : Nat) : Int)) :=
    parseSpan_renderSpan _ _ hnb hnb
  have hbuf2 : st.buf = serializeLines P ++ serializeLines B := by
    rw [hbuf, serializeLines_append]
  have haddr : addrRangeLines st.buf ((o + 1 : Nat) : Int) ((o + B.length : Nat) : Int) =
      some ((serializeLines P).length, (serializeLines P ++ serializeLines B).length) := by
    have ha := addrRangeLines_serial P B [] hwP hwB (fun l hl => absurd hl (by simp)) hB
    rw [show serializeLines ([] : List Line) = [] from rfl, List.append_nil] at ha
    rw [hbuf2, show ((o + 1 : Nat) : Int) = (P.length : Int) + 1 by rw [ho]; push_cast; ring,
      show ((o + B.length : Nat) : Int) = (P.length : Int) + (B.length : Int) by
        rw [ho]; push_cast; ring]
    exact ha
  have hstep : replayStep new st (hunkHeader ⟨HKind.hdelete, o + 1, o + B.length, n, n⟩) =
      dataW (addrEv st
          (AddrSpec.range ((o + 1 : Nat) : Int) ((o + B.length : Nat) : Int)) true)
        [] (serializeLines P).length (serializeLines P ++ serializeLines B).length := by
    unfold replayStep
    rw [if_neg (by simp [hstop]), if_neg hne, if_neg hsent, if_neg hhead, hsplit]
    push_cast at hps1 hps2 haddr
    have hno : ¬((o : Int) + 1 = 0) := by omega
    have hnn : ¬(n = 0) := by omega
    simp [hps1, hps2, haddr, hno, hnn, opByte]
  have h1 : st.buf.take (serializeLines P).length = serializeLines P := by
    rw [hbuf2]
    exact List.take_left _ _
  have h2 : st.buf.drop (serializeLines P ++ serializeLines B).length = [] := by
    rw [hbuf2]
    exact List.drop_length _
  constructor
  · rw [hstep]
    show st.buf.take _ ++ [] ++ st.buf.drop _ = _
    rw [h1, h2]
    simp
  · rw [hstep]
    exact hstop

theorem replayStep_add_hunk (new : List Byte) (st : RSt) (P Q B : List Line) (o n : Nat)
    (hwP : LinesWF P) (hwQ : LinesWF Q) (hwB : LinesWF B) (hB : B ≠ [])
    (hstop : st.stopped = false)
    (ho : o = P.length) (hn : n = Q.length) (ho1 : 1 ≤ o)
    (hbuf : st.buf = serializeLines P)
    (hnew : new = serializeLines (Q ++ B))
    (hob : o ≤ maxInt64) (hnb : n + B.length ≤ maxInt64) :
    (replayStep new st (hunkHeader ⟨HKind.hadd, o, o, n + 1, n + B.length⟩)).buf =
        serializeLines (P ++ B) ∧
      (replayStep new st (hunkHeader ⟨HKind.hadd, o, o, n + 1, n + B.length⟩)).stopped =
        false := by
  obtain ⟨hne, hsent, hhead, hsplit⟩ :=
    hunkHeader_facts ⟨HKind.hadd, o, o, n + 1, n + B.length⟩
  have hBlen : 1 ≤ B.length := by
    cases B with
    | nil => exact absurd rfl hB
    | cons l ls => simp
  have hps1 : parseSpan (renderSpan o o) = (((o : Nat) : Int), ((o : Nat) : Int)) :=
    parseSpan_renderSpan _ _ hob hob
  have hps2 : parseSpan (renderSpan (n + 1) (n + B.length)) =
      (((n + 1 : Nat) : Int), ((n + B.length : Nat) : Int)) :=
    parseSpan_renderSpan _ _ (by omega) hnb
  have hP : P ≠ [] := by
    intro he
    rw [he] at ho
    simp at ho
    omega
  have haddr : addrAfterLine st.buf ((o : Nat) : Int) = some (serializeLines P).length := by
    have ha := addrAfterLine_serial P [] hwP (fun l hl => absurd hl (by simp)) hP
    rw [show serializeLines ([] : List Line) = [] from rfl, List.append_nil] at ha
    rw [hbuf, show ((o : Nat) : Int) = (P.length : Int) by rw [ho]]
    exact ha
  have hnew2 : new = serializeLines Q ++ serializeLines B := by
    rw [hnew, serializeLines_append]
  have hpay : findLines new ((n + 1 : Nat) : Int) ((n + B.length : Nat) : Int) =
      serializeLines B := by
    have hp := findLines_serializeLines Q B hwQ hwB []
    rw [List.append_nil] at hp
    rw [hnew2, show ((n + 1 : Nat) : Int) = (Q.length : Int) + 1 by rw [hn]; push_cast; ring,
      show ((n + B.length : Nat) : Int) = (Q.length : Int) + (B.length : Int) by
        rw [hn]; push_cast; ring]
    exact hp
  have hstep : replayStep new st (hunkHeader ⟨HKind.hadd, o, o, n + 1, n + B.length⟩) =
      dataW (addrEv st (AddrSpec.after ((o : Nat) : Int)) true) (serializeLines B)
        (serializeLines P).length (serializeLines P).length := by
    unfold replayStep
    rw [if_neg (by simp [hstop]), if_neg hne, if_neg hsent, if_neg hhead, hsplit]
    push_cast at hps1 hps2 haddr hpay
    have hno : ¬(o = 0) := by omega
    have hnn : ¬((n : Int) + 1 = 0) := by omega
    simp [hps1, hps2, haddr, hpay, hno, hnn, opByte]
  constructor
  · rw [hstep]
    show st.buf.take _ ++ serializeLines B ++ st.buf.drop _ = _
    rw [hbuf, List.take_length, List.drop_length, List.append_nil, ← serializeLines_append]
  · rw [hstep]
    exact hstop

/-! ## Replay correctness for the modelled diff -/

theorem replayLines_append (new : List Byte) (A B : List (List Byte)) (st : RSt) :
    replayLines new (A ++ B) st = replayLines new B (replayLines new A st) := by
  simp [replayLines, List.foldl_append]

theorem renderScript_cons (a b : List Line) (h : Hunk) (hs : List Hunk) :
    renderScript a b (h :: hs) = renderHunk a b h ++ renderScript a b hs := by
  simp [renderScript]

theorem replay_diffAux (oldAll newLs : List Line) :
    ∀ (xs ys P Q : List Line) (st : RSt),
      LinesWF xs → LinesWF ys → LinesWF P → LinesWF Q →
      st.stopped = false →
      st.buf = serializeLines (P ++ xs) →
      newLs = Q ++ ys →
      (xs = [] → ys ≠ [] → 1 ≤ P.length) →
      (ys = [] → xs ≠ [] → 1 ≤ Q.length) →
      P.length + xs.length ≤ maxInt64 →
      Q.length + ys.length ≤ maxInt64 →
      (replayLines (serializeLines newLs)
          (renderScript oldAll newLs (diffAux xs ys P.length Q.length)).reverse st).buf =
          serializeLines (P ++ ys) ∧
        (replayLines (serializeLines newLs)
          (renderScript oldAll newLs (diffAux xs ys P.length Q.length)).reverse st).stopped =
          false := by
  intro xs
  induction xs with
  | nil =>
    intro ys P Q st hwxs hwys hwP hwQ hstop hbuf hnew hc1 hc2 hbP hbQ
    cases ys with
    | nil =>
      simp only [diffAux, renderScript, List.map_nil, List.flatten_nil, List.reverse_nil]
      exact ⟨hbuf, hstop⟩
    | cons y ys2 =>
      simp only [diffAux]
      rw [show renderScript oldAll newLs
          [⟨HKind.hadd, P.length, P.length, Q.length + 1, Q.length + (y :: ys2).length⟩] =
          renderHunk oldAll newLs
            ⟨HKind.hadd, P.length, P.length, Q.length + 1, Q.length + (y :: ys2).length⟩ by
        simp [renderScript]]
      rw [replayLines_renderHunk]
      rw [List.append_nil] at hbuf
      exact replayStep_add_hunk (serializeLines newLs) st P Q (y :: ys2) P.length Q.length
        hwP hwQ hwys (by simp) hstop rfl rfl (hc1 rfl (by simp)) hbuf (by rw [hnew])
        (by simp at hbP; omega) hbQ
  | cons x xs2 ih =>
    intro ys P Q st hwxs hwys hwP hwQ hstop hbuf hnew hc1 hc2 hbP hbQ
    have hwx : (10 : Byte) ∉ x := hwxs x (by simp)
    have hwxs2 : LinesWF xs2 := fun l hl => hwxs l (by simp [hl])
    cases ys with
    | nil =>
      simp only [diffAux]
      rw [show renderScript oldAll newLs
          [⟨HKind.hdelete, P.length + 1, P.length + (x :: xs2).length, Q.length, Q.length⟩] =
          renderHunk oldAll newLs
            ⟨HKind.hdelete, P.length + 1, P.length + (x :: xs2).length, Q.length, Q.length⟩ by
        simp [renderScript]]
      rw [replayLines_renderHunk]
      have hres := replayStep_delete_hunk (serializeLines newLs) st P (x :: xs2)
        P.length Q.length hwP hwxs (by simp) hstop rfl (hc2 rfl (by simp)) hbuf hbP
        (by omega)
      simpa using hres
    | cons y ys2 =>
      have hwy : (10 : Byte) ∉ y := hwys y (by simp)
      have hwys2 : LinesWF ys2 := fun l hl => hwys l (by simp [hl])
      have hih := ih ys2 (P ++ [x]) (Q ++ [y]) st hwxs2 hwys2
        (linesWF_append hwP (linesWF_single hwx)) (linesWF_append hwQ (linesWF_single hwy))
        hstop (by rw [hbuf]; simp)
      by_cases hxy : x = y
      · simp only [diffAux, if_pos hxy]
        have hih2 := hih (by rw [hnew]; simp) (fun _ _ => by simp)
          (fun _ _ => by simp) (by simp at hbP ⊢; omega) (by simp at hbQ ⊢; omega)
        simp only [List.length_append, List.length_singleton] at hih2
        rw [show (P ++ [x]) ++ ys2 = P ++ y :: ys2 by simp [hxy]] at hih2
        exact hih2
      · simp only [diffAux, if_neg hxy]
        rw [renderScript_cons, List.reverse_append, replayLines_append]
        have hih2 := hih (by rw [hnew]; simp) (fun _ _ => by simp)
          (fun _ _ => by simp) (by simp at hbP ⊢; omega) (by simp at hbQ ⊢; omega)
        simp only [List.length_append, List.length_singleton] at hih2
        obtain ⟨hb1, hs1⟩ := hih2
        rw [show (P ++ [x]) ++ ys2 = P ++ x :: ys2 by simp] at hb1
        rw [replayLines_renderHunk]
        have hchg := replayStep_change_hunk (serializeLines newLs) _ P Q ys2 x y
          P.length Q.length hwP hwQ hwys2 hwx hwy hs1 rfl rfl hb1 (by rw [hnew])
          (by simp at hbP; omega) (by simp at hbQ; omega)
        exact hchg

theorem hunkHeader_no_nl (h : Hunk) : (10 : Byte) ∉ hunkHeader h := by
  intro hm
  unfold hunkHeader at hm
  rcases List.mem_append.mp hm with hm2 | hm2
  · rcases renderSpan_mem _ _ _ hm2 with hd | h44
    · exact absurd (isDigit_facts _ hd).1 (by decide)
    · exact absurd h44 (by decide)
  · rcases List.mem_cons.mp hm2 with hop | hm3
    · have hopne : opByte h.kind ≠ 10 := by cases h.kind <;> decide
      exact hopne hop.symm
    · rcases renderSpan_mem _ _ _ hm3 with hd | h44
      · exact absurd (isDigit_facts _ hd).1 (by decide)
      · exact absurd h44 (by decide)

theorem sliceLines_subset (ls : List Line) (s e : Nat) (l : Line)
    (hl : l ∈ sliceLines ls s e) : l ∈ ls := by
  unfold sliceLines at hl
  exact List.take_subset e ls (List.drop_subset _ _ hl)

theorem renderHunk_wf (oldL newL : List Line) (hwO : LinesWF oldL) (hwN : LinesWF newL)
    (h : Hunk) : LinesWF (renderHunk oldL newL h) := by
  intro l hl
  obtain ⟨contents, heq, hc⟩ := renderHunk_eq oldL newL h
  rw [heq] at hl
  rcases List.mem_cons.mp hl with rfl | hl2
  · exact hunkHeader_no_nl h
  · -- a content line: either from a map over slice lines or the separator
    unfold renderHunk at heq
    cases hk : h.kind <;> rw [hk] at heq <;> injection heq with _ hcont <;> subst hcont
    · obtain ⟨x, hx, rfl⟩ := List.mem_map.mp hl2
      intro hm
      rcases List.mem_cons.mp hm with h62 | hm2
      · exact absurd h62 (by decide)
      · rcases List.mem_cons.mp hm2 with h32 | hm3
        · exact absurd h32 (by decide)
        · exact hwN x (sliceLines_subset newL _ _ x hx) hm3
    · rcases List.mem_append.mp hl2 with hm | hm
      · rcases List.mem_append.mp hm with hm2 | hm2
        · obtain ⟨x, hx, rfl⟩ := List.mem_map.mp hm2
          intro hmm
          rcases List.mem_cons.mp hmm with h60 | hmm2
          · exact absurd h60 (by decide)
          · rcases List.mem_cons.mp hmm2 with h32 | hmm3
            · exact absurd h32 (by decide)
            · exact hwO x (sliceLines_subset oldL _ _ x hx) hmm3
        · simp at hm2
          subst hm2
          decide
      · obtain ⟨x, hx, rfl⟩ := List.mem_map.mp hm
        intro hmm
        rcases List.mem_cons.mp hmm with h62 | hmm2
        · exact absurd h62 (by decide)
        · rcases List.mem_cons.mp hmm2 with h32 | hmm3
          · exact absurd h32 (by decide)
          · exact hwN x (sliceLines_subset newL _ _ x hx) hmm3
    · obtain ⟨x, hx, rfl⟩ := List.mem_map.mp hl2
      intro hm
      rcases List.mem_cons.mp hm with h60 | hm2
      · exact absurd h60 (by decide)
      · rcases List.mem_cons.mp hm2 with h32 | hm3
        · exact absurd h32 (by decide)
        · exact hwO x (sliceLines_subset oldL _ _ x hx) hm3

theorem renderScript_wf (oldL newL : List Line) (hwO : LinesWF oldL) (hwN : LinesWF newL)
    (hs : List Hunk) : LinesWF (renderScript oldL newL hs) := by
  intro l hl
  unfold renderScript at hl
  obtain ⟨sub, hsub, hlsub⟩ := List.mem_flatten.mp hl
  obtain ⟨h, _, rfl⟩ := List.mem_map.mp hsub
  exact renderHunk_wf oldL newL hwO hwN h l hlsub

theorem replayLines_cons (new : List Byte) (l : List Byte) (rest : List (List Byte))
    (st : RSt) : replayLines new (l :: rest) st = replayLines new rest (replayStep new st l) :=
  rfl

/-! ## Claim theorems (guard, idempotence, applied flag, negative spans) -/

/-- C2: whenever the live buffer read before replay differs from the
snapshot `old`, `reformatCore` makes no backend calls at all — in
particular zero control writes and zero data writes — and returns false. -/
theorem c2_guard_skips_all_writes (old latest new diffText : List Byte)
    (h : old ≠ latest) :
    (reformatCore old latest new diffText).trace = [] ∧
      (reformatCore old latest new diffText).modified = false := by
  unfold reformatCore
  by_cases h1 : old = new
  · simp [h1]
  · simp [h1, h]

/-- Witness for C2 at a concrete input. -/
theorem c2_guard_skips_all_writes_witness :
    (reformatCore [97] [98] [99] [49]).trace = [] ∧
      (reformatCore [97] [98] [99] [49]).modified = false :=
  c2_guard_skips_all_writes [97] [98] [99] [49] (by decide)

/-- C7: when the formatter output equals the on-disk content, the event
performs zero writes: `reformatCore` returns before any control or data
write, leaves the buffer untouched and reports false. -/
theorem c7_equal_buffers_zero_writes (old latest new diffText : List Byte)
    (h : old = new) :
    (reformatCore old latest new diffText).trace = [] ∧
      (reformatCore old latest new diffText).modified = false ∧
      (reformatCore old latest new diffText).buf = latest := by
  unfold reformatCore
  simp [h]

/-- Witness for C7 at a concrete input. -/
theorem c7_equal_buffers_zero_writes_witness :
    (reformatCore [97, 10] [98] [97, 10] [49]).trace = [] ∧
      (reformatCore [97, 10] [98] [97, 10] [49]).modified = false ∧
      (reformatCore [97, 10] [98] [97, 10] [49]).buf = [98] :=
  c7_equal_buffers_zero_writes [97, 10] [98] [97, 10] [49] rfl

/-- C8: the boolean returned by `reformat` (the `Window.modified` flag) is
true exactly when at least one write (ctl or data) was issued to the
window during the event. -/
theorem c8_applied_iff_write (old latest new diffText : List Byte) :
    (reformatCore old latest new diffText).modified = true ↔
      (reformatCore old latest new diffText).trace.filter isWriteEv ≠ [] := by
  unfold reformatCore
  by_cases h1 : old = new
  · simp [h1]
  · by_cases h2 : old = latest
    · rw [if_neg h1, if_pos h2]
      obtain ⟨ext, hext, hmono⟩ :=
        replayLines_trace_modified new ((splitNL diffText).reverse)
          (ctlW (ctlW ⟨latest, [], false, false⟩ markBytes) nomarkBytes)
      constructor
      · intro _
        rw [hext]
        simp [ctlW, isWriteEv]
      · intro _
        exact hmono rfl
    · simp [h1, h2]

/-- C3 (amended): when setting the address for an operation fails, the
failure is recorded, no data write is issued for that operation, the
buffer is left alone — but the loop is not aborted: the Go `break` exits
only the `switch`, so the remaining (earlier-in-document) diff lines are
still processed from the post-failure state. -/
theorem c3_amended_addr_failure_no_write_then_continue (new : List Byte) (st : RSt)
    (line : List Byte) (rest : List (List Byte)) (pre post : List Byte) (op : Byte)
    (hstop : st.stopped = false) (hne : line ≠ []) (hsent : line ≠ noNewlineSentinel)
    (hhead : ¬(line.head? = some 60 ∨ line.head? = some 45 ∨ line.head? = some 62))
    (hsplit : splitAtOp line = some (pre, op, post))
    (hzero : ¬((parseSpan pre).1 = 0 ∨ (parseSpan post).1 = 0))
    (hfail : (op = 97 ∧ addrAfterLine st.buf (parseSpan pre).1 = none) ∨
      ((op = 99 ∨ op = 100) ∧
        addrRangeLines st.buf (parseSpan pre).1 (parseSpan pre).2 = none)) :
    ∃ spec, replayStep new st line = addrEv st spec false ∧
      (addrEv st spec false).trace = st.trace ++ [Ev.addr spec false] ∧
      (addrEv st spec false).stopped = false ∧
      (addrEv st spec false).buf = st.buf ∧
      replayLines new (line :: rest) st = replayLines new rest (addrEv st spec false) := by
  have key : ∃ spec, replayStep new st line = addrEv st spec false := by
    unfold replayStep
    rw [if_neg (by simp [hstop]), if_neg hne, if_neg hsent, if_neg hhead, hsplit]
    rcases hfail with ⟨hop, haddr⟩ | ⟨hop, haddr⟩
    · subst hop
      simp [hzero, haddr]
      exact ⟨_, rfl⟩
    · rcases hop with hop | hop <;> subst hop <;> simp [hzero, haddr] <;> exact ⟨_, rfl⟩
  obtain ⟨spec, hs⟩ := key
  refine ⟨spec, hs, rfl, hstop, rfl, ?_⟩
  show replayLines new rest (replayStep new st line) = _
  rw [hs]

/-- Witness for C3's amended theorem: the header `5c5` against a 1-line
buffer fails its address, records the failure and continues. -/
theorem c3_amended_addr_failure_no_write_then_continue_witness :
    ∃ spec, replayStep [] ⟨[97, 10], [], false, false⟩ [53, 99, 53] =
        addrEv ⟨[97, 10], [], false, false⟩ spec false ∧
      (addrEv ⟨[97, 10], [], false, false⟩ spec false).trace =
        ([] : List Ev) ++ [Ev.addr spec false] ∧
      (addrEv ⟨[97, 10], [], false, false⟩ spec false).stopped = false ∧
      (addrEv ⟨[97, 10], [], false, false⟩ spec false).buf = [97, 10] ∧
      replayLines [] [[53, 99, 53]] ⟨[97, 10], [], false, false⟩ =
        replayLines [] [] (addrEv ⟨[97, 10], [], false, false⟩ spec false) :=
  c3_amended_addr_failure_no_write_then_continue [] ⟨[97, 10], [], false, false⟩
    [53, 99, 53] [] [53] [53] 99 rfl (by decide) (by decide) (by decide) (by decide)
    (by decide) (Or.inr ⟨Or.inl rfl, by decide⟩)

/-- C3 counterexample: the claim that an address failure aborts all
remaining operations is false. With the crafted script `1c1\n5c5\n`
against the live buffer `a\nb\n`, the address for `5c5` (processed first)
fails, yet the loop goes on: the address `1,1` is then set and a data
write issued, so address and data calls do occur after the failure. -/
theorem c3_counterexample_continue_after_addr_failure :
    (reformatCore [97, 10, 98, 10] [97, 10, 98, 10] [120, 10, 121, 10]
        [49, 99, 49, 10, 53, 99, 53, 10]).trace =
      [Ev.ctl markBytes, Ev.ctl nomarkBytes, Ev.addr (AddrSpec.range 5 5) false,
       Ev.addr (AddrSpec.range 1 1) true, Ev.data [120, 10]] ∧
      abortsAfterAddrFail
        (reformatCore [97, 10, 98, 10] [97, 10, 98, 10] [120, 10, 121, 10]
          [49, 99, 49, 10, 53, 99, 53, 10]).trace = false := by
  decide

/-- C4 (amended): a non-content, non-blank diff line with none of the
operator bytes `a`, `c`, `d` does not merely skip that one line: the Go
`break` aborts the whole replay loop, so none of the remaining
(earlier-in-document) diff lines is processed and the state is returned
with only the stop flag set. -/
theorem c4_amended_parse_error_aborts_loop (new : List Byte) (st : RSt)
    (line : List Byte) (rest : List (List Byte)) (hstop : st.stopped = false)
    (hne : line ≠ []) (hsent : line ≠ noNewlineSentinel)
    (hhead : ¬(line.head? = some 60 ∨ line.head? = some 45 ∨ line.head? = some 62))
    (hsplit : splitAtOp line = none) :
    replayLines new (line :: rest) st = { st with stopped := true } := by
  have hs : replayStep new st line = { st with stopped := true } := by
    unfold replayStep
    rw [if_neg (by simp [hstop]), if_neg hne, if_neg hsent, if_neg hhead, hsplit]
  show replayLines new rest (replayStep new st line) = _
  rw [hs]
  exact replayLines_stopped new rest _ rfl

/-- Witness for C4's amended theorem: the unparsable line `zzz` aborts the
loop, leaving the pending header `1c1` unprocessed. -/
theorem c4_amended_parse_error_aborts_loop_witness :
    replayLines [98, 10] [[122, 122, 122], [49, 99, 49]] ⟨[97, 10], [], false, false⟩ =
      { buf := [97, 10], trace := [], modified := false, stopped := true } :=
  c4_amended_parse_error_aborts_loop [98, 10] ⟨[97, 10], [], false, false⟩
    [122, 122, 122] [[49, 99, 49]] rfl (by decide) (by decide) (by decide) (by decide)

/-- C4 counterexample: the claim that a parse error skips only the bad
line and still applies the rest of the script is false. With the script
`1c1\nzzz\n` (the unparsable `zzz` processed first), the run makes no
address or data call at all — the parsable `1c1` hunk is never applied and
the buffer is unchanged. -/
theorem c4_counterexample_parse_error_drops_rest :
    (reformatCore [97, 10] [97, 10] [98, 10]
        [49, 99, 49, 10, 122, 122, 122, 10]).trace =
      [Ev.ctl markBytes, Ev.ctl nomarkBytes] ∧
      (reformatCore [97, 10] [97, 10] [98, 10]
        [49, 99, 49, 10, 122, 122, 122, 10]).buf = [97, 10] := by
  decide

/-- C5: `parseSpan` maps a bare integer `N` to `(N, N)`, a string `N,M` to
`(N, M)`, any failed conversion to the `(0, 0)` sentinel; and the replay
loop skips a hunk whose parsed old-start or new-start is 0 — no address is
set, nothing is written — while the remaining diff lines are still
processed from an unchanged state. -/
theorem c5_parse_span_and_zero_skip :
    (∀ (t : List Byte) (n : Int), goAtoi t = some n → parseSpan t = (n, n)) ∧
    (∀ (a b : List Byte) (s e : Int), goAtoi a = some s → goAtoi b = some e →
      parseSpan (a ++ 44 :: b) = (s, e)) ∧
    (∀ t : List Byte, splitAtComma t = none → goAtoi t = none → parseSpan t = (0, 0)) ∧
    (∀ t a b : List Byte, splitAtComma t = some (a, b) →
      goAtoi a = none ∨ goAtoi b = none → parseSpan t = (0, 0)) ∧
    (∀ (new : List Byte) (st : RSt) (line : List Byte) (rest : List (List Byte))
      (pre : List Byte) (op : Byte) (post : List Byte),
      st.stopped = false → line ≠ [] → line ≠ noNewlineSentinel →
      ¬(line.head? = some 60 ∨ line.head? = some 45 ∨ line.head? = some 62) →
      splitAtOp line = some (pre, op, post) →
      (parseSpan pre).1 = 0 ∨ (parseSpan post).1 = 0 →
      replayStep new st line = st ∧
        replayLines new (line :: rest) st = replayLines new rest st) := by
  refine ⟨?_, ?_, ?_, ?_, ?_⟩
  · intro t n h
    have hc : splitAtComma t = none := splitAtComma_no_comma t (goAtoi_no_comma t n h)
    simp [parseSpan, hc, h]
  · intro a b s e ha hb
    have hc : splitAtComma (a ++ 44 :: b) = some (a, b) :=
      splitAtComma_append a b (goAtoi_no_comma a s ha)
    simp [parseSpan, hc, ha, hb]
  · intro t hc h
    simp [parseSpan, hc, h]
  · intro t a b hc h
    rcases h with h | h
    · cases hb : goAtoi b <;> simp [parseSpan, hc, h, hb]
    · cases ha : goAtoi a <;> simp [parseSpan, hc, h, ha]
  · intro new st line rest pre op post hstop hne hsent hhead hsplit hzero
    have hs : replayStep new st line = st := by
      unfold replayStep
      rw [if_neg (by simp [hstop]), if_neg hne, if_neg hsent, if_neg hhead, hsplit]
      simp only [if_pos hzero]
    exact ⟨hs, by
      show replayLines new rest (replayStep new st line) = replayLines new rest st
      rw [hs]⟩

/-- Witness for C5 at concrete inputs: `"5"`, `"1,2"`, `"zz"`, `","` and
the skipped hunk header `"0a1"`. -/
theorem c5_parse_span_and_zero_skip_witness :
    parseSpan [53] = (5, 5) ∧
      parseSpan ([49] ++ 44 :: [50]) = (1, 2) ∧
      parseSpan [122] = (0, 0) ∧
      parseSpan [44] = (0, 0) ∧
      (replayStep [] ⟨[97, 10], [], false, false⟩ [48, 97, 49] = ⟨[97, 10], [], false, false⟩ ∧
        replayLines [] [[48, 97, 49], [49, 100, 49]] ⟨[97, 10], [], false, false⟩ =
          replayLines [] [[49, 100, 49]] ⟨[97, 10], [], false, false⟩) := by
  refine ⟨?_, ?_, ?_, ?_, ?_⟩
  · exact c5_parse_span_and_zero_skip.1 [53] 5 (by decide)
  · exact c5_parse_span_and_zero_skip.2.1 [49] [50] 1 2 (by decide) (by decide)
  · exact c5_parse_span_and_zero_skip.2.2.1 [122] (by decide) (by decide)
  · exact c5_parse_span_and_zero_skip.2.2.2.1 [44] [] [] (by decide) (Or.inl (by decide))
  · exact c5_parse_span_and_zero_skip.2.2.2.2 [] ⟨[97, 10], [], false, false⟩
      [48, 97, 49] [[49, 100, 49]] [48] 97 [49] rfl (by decide) (by decide)
      (by decide) (by decide) (Or.inl (by decide))

/-- C6: span extraction: `findLines` on `"a\nb\nc\n"` returns `"a\n"` for
lines (1,1) and `"b\nc\n"` for lines (2,3); and whenever `end` exceeds the
line count of the buffer, the result runs through the end of the buffer
(it is a suffix of the buffer) without error. -/
theorem c6_span_extraction :
    findLines [97, 10, 98, 10, 99, 10] 1 1 = [97, 10] ∧
      findLines [97, 10, 98, 10, 99, 10] 2 3 = [98, 10, 99, 10] ∧
      (∀ (text : List Byte) (s e : Int), (lineCountB text : Int) < e →
        ∃ pre, text = pre ++ findLines text s e) := by
  refine ⟨by decide, by decide, ?_⟩
  intro text s e h
  obtain ⟨pre, h1, h2⟩ := flSkip_shape text (s - 1) e
  refine ⟨pre, ?_⟩
  have hc : countNL text = countNL pre + countNL (flSkip text (s - 1) e).1 := by
    conv_lhs => rw [h1]
    rw [countNL_append]
  have hle : countNL text ≤ lineCountB text := by
    unfold lineCountB
    omega
  have hlt : (countNL (flSkip text (s - 1) e).1 : Int) < e - countNL pre := by
    have h1i : (countNL text : Int) ≤ (lineCountB text : Int) := by exact_mod_cast hle
    have h2i : (countNL text : Int) = countNL pre + countNL (flSkip text (s - 1) e).1 := by
      exact_mod_cast hc
    omega
  show text = pre ++ flTake (flSkip text (s - 1) e).1 (flSkip text (s - 1) e).2
  rw [h2, flTake_all _ _ hlt]
  exact h1

/-- Witness for C6's universally quantified part at a concrete input
(`end = 5` exceeds the 1-line buffer `"a\n"`), alongside the two fixed
extractions. -/
theorem c6_span_extraction_witness :
    findLines [97, 10, 98, 10, 99, 10] 1 1 = [97, 10] ∧
      findLines [97, 10, 98, 10, 99, 10] 2 3 = [98, 10, 99, 10] ∧
      ∃ pre, [97, 10] = pre ++ findLines [97, 10] 1 5 :=
  ⟨c6_span_extraction.1, c6_span_extraction.2.1,
    c6_span_extraction.2.2 [97, 10] 1 5 (by decide)⟩

/-- C9: `findLines` is total and in-bounds: for every buffer and every pair
of integers it returns a contiguous slice `(text.take j).drop i` with
`i ≤ j ≤ length`, and when `start` exceeds the buffer's line count it
returns the empty slice. -/
theorem c9_findLines_total_slice (text : List Byte) (s e : Int) :
    (∃ i j, i ≤ j ∧ j ≤ text.length ∧ findLines text s e = (text.take j).drop i) ∧
      ((lineCountB text : Int) < s → findLines text s e = []) := by
  constructor
  · obtain ⟨pre, h1, h2⟩ := flSkip_shape text (s - 1) e
    obtain ⟨m, hm, ht⟩ := flTake_take (flSkip text (s - 1) e).1 (flSkip text (s - 1) e).2
    have hlen : text.length = pre.length + (flSkip text (s - 1) e).1.length := by
      conv_lhs => rw [h1]
      simp
    refine ⟨pre.length, pre.length + m, by omega, by omega, ?_⟩
    show flTake (flSkip text (s - 1) e).1 (flSkip text (s - 1) e).2 =
      (text.take (pre.length + m)).drop pre.length
    rw [ht, List.drop_take]
    have hdrop : text.drop pre.length = (flSkip text (s - 1) e).1 := by
      conv_lhs => rw [h1]
      exact List.drop_left pre _
    rw [hdrop, Nat.add_sub_cancel_left]
  · intro h
    have hs : (lineCountB text : Int) ≤ s - 1 := by omega
    show flTake (flSkip text (s - 1) e).1 (flSkip text (s - 1) e).2 = []
    rw [flSkip_all text (s - 1) e hs]
    rfl

/-- Witness for C9 at a concrete input where `start = 9` exceeds the line
count of the 2-line buffer `"a\nb"`. -/
theorem c9_findLines_total_slice_witness :
    (∃ i j, i ≤ j ∧ j ≤ ([97, 10, 98] : List Byte).length ∧
      findLines [97, 10, 98] 9 9 = (([97, 10, 98] : List Byte).take j).drop i) ∧
      findLines [97, 10, 98] 9 9 = [] :=
  ⟨(c9_findLines_total_slice [97, 10, 98] 9 9).1,
    (c9_findLines_total_slice [97, 10, 98] 9 9).2 (by decide)⟩

/-- C1 (amended): replay round-trip. For newline-terminated buffers
(serializations of line lists), running `reformatCore` on a live buffer
equal to `old` with the modelled diff of `old` versus `new` produces a
buffer byte-equal to `new` — provided no diff hunk carries the old-start-0
or new-start-0 sentinel, i.e. neither buffer is empty while the other is
not (such hunks are skipped by the replay loop, breaking the round-trip). -/
theorem c1_amended_replay_roundtrip (oldL newL : List Line)
    (hwO : LinesWF oldL) (hwN : LinesWF newL)
    (hO : oldL = [] → newL = []) (hN : newL = [] → oldL = [])
    (hbO : oldL.length ≤ maxInt64) (hbN : newL.length ≤ maxInt64) :
    (reformatCore (serializeLines oldL) (serializeLines oldL) (serializeLines newL)
      (diffBytes oldL newL)).buf = serializeLines newL := by
  unfold reformatCore
  by_cases heq : serializeLines oldL = serializeLines newL
  · rw [if_pos heq]
    exact heq
  · rw [if_neg heq, if_pos rfl]
    unfold diffBytes diffOps
    rw [splitNL_serializeLines _ (renderScript_wf oldL newL hwO hwN _), List.reverse_append]
    rw [show ([[]] : List (List Byte)).reverse = [[]] from rfl]
    rw [show ([[]] : List (List Byte)) ++ (renderScript oldL newL (diffAux oldL newL 0 0)).reverse =
      [] :: (renderScript oldL newL (diffAux oldL newL 0 0)).reverse from rfl]
    rw [replayLines_cons, replayStep_blank]
    have hmain := replay_diffAux oldL newL oldL newL [] []
      (ctlW (ctlW ⟨serializeLines oldL, [], false, false⟩ markBytes) nomarkBytes)
      hwO hwN (fun l hl => absurd hl (by simp)) (fun l hl => absurd hl (by simp))
      rfl (by simp [ctlW]) (by simp)
      (fun hx hy => absurd (hO hx) hy) (fun hy hx => absurd (hN hy) hx)
      (by simpa using hbO) (by simpa using hbN)
    simpa using hmain.1

/-- Witness for C1's amended theorem: `old = "a\n"`, `new = "b\n"`. -/
theorem c1_amended_replay_roundtrip_witness :
    (reformatCore (serializeLines [[97]]) (serializeLines [[97]]) (serializeLines [[98]])
      (diffBytes [[97]] [[98]])).buf = serializeLines [[98]] :=
  c1_amended_replay_roundtrip [[97]] [[98]]
    (by unfold LinesWF; decide) (by unfold LinesWF; decide)
    (fun h => absurd h (by decide)) (fun h => absurd h (by decide))
    (by decide) (by decide)

/-- C1 counterexample: the round-trip fails for arbitrary byte buffers.
With `old` the empty buffer and `new = "a\n"`, the modelled diff (matching
`/usr/bin/diff` byte for byte) is `0a1\n> a\n`; the replay loop skips the
`0a1` hunk because its old-start is the 0 sentinel, so the buffer stays
empty instead of becoming `new`. -/
theorem c1_counterexample_empty_old :
    (reformatCore [] [] (serializeLines [[97]]) (diffBytes [] [[97]])).buf ≠
      serializeLines [[97]] := by
  decide

/-- C10: the zero sentinel of `parseSpan` does not catch negative values.
On the hunk header `3c-4` (bytes `[51, 99, 45, 52]`), `parseSpan` returns
the negative span `(-4, -4)`, the skip check does not fire, the address
`3,3` is set successfully, `findLines` on the negative range returns the
empty slice, and an empty data payload is written (deleting line 3). -/
theorem c10_negative_span_behavior :
    parseSpan [45, 52] = (-4, -4) ∧
      findLines [122, 10] (-4) (-4) = [] ∧
      (reformatCore [97, 10, 98, 10, 99, 10] [97, 10, 98, 10, 99, 10]
          [122, 10] [51, 99, 45, 52, 10]).trace =
        [Ev.ctl markBytes, Ev.ctl nomarkBytes,
         Ev.addr (AddrSpec.range 3 3) true, Ev.data []] ∧
      (reformatCore [97, 10, 98, 10, 99, 10] [97, 10, 98, 10, 99, 10]
          [122, 10] [51, 99, 45, 52, 10]).buf = [97, 10, 98, 10] := by
  refine ⟨by decide, by decide, ?_, ?_⟩ <;> decide

end Acmego
